import Mathlib

/-!
Verification of the patient-name extraction engine.

The development embeds the engine shallowly: Python string helpers are
modelled over `String`/`List Char` (ASCII case semantics), token bounding-box
coordinates are modelled as integers (only their ordering matters to the
engine), Python's stable `sorted` is modelled by the stable
`List.insertionSort`, and each fallible operation returns `Except`.
-/

/-- Characters stripped by Python's default `str.strip()` (whitespace). -/
def pyIsSpace (c : Char) : Bool :=
  c = ' ' || c = '\t' || c = '\n' || c = '\r' || c = '\x0b' || c = '\x0c'

/-- Characters stripped by `str.strip(" :")`. -/
def pySpaceColon (c : Char) : Bool :=
  c = ' ' || c = ':'

/-- `s.strip()` is empty, i.e. every character of `s` is whitespace. -/
def wsOnly (s : String) : Bool :=
  s.data.all pyIsSpace

/-- Drop the characters satisfying `p` from both ends of a character list. -/
def dropEnds (p : Char → Bool) (l : List Char) : List Char :=
  ((l.dropWhile p).reverse.dropWhile p).reverse

/-- Python `s.strip(" :")`. -/
def stripSpaceColon (s : String) : String :=
  ⟨dropEnds pySpaceColon s.data⟩

/-- Python `s.rstrip(":")`. -/
def rstripColon (s : String) : String :=
  ⟨(s.data.reverse.dropWhile (· = ':')).reverse⟩

/-- Python `s.lower()` (ASCII case mapping suffices for the engine's data). -/
def pyLower (s : String) : String :=
  ⟨s.data.map Char.toLower⟩

/-- A character is cased (has an upper/lower distinction). -/
def pyCased (c : Char) : Bool :=
  c.isUpper || c.isLower

/-- Python `s.islower()`: some cased character, and all cased ones lowercase. -/
def pyIsLowerStr (s : String) : Bool :=
  s.data.any pyCased && s.data.all (fun c => !pyCased c || c.isLower)

/-- Python `s.isupper()`: some cased character, and all cased ones uppercase. -/
def pyIsUpperStr (s : String) : Bool :=
  s.data.any pyCased && s.data.all (fun c => !pyCased c || c.isUpper)

/-- Python `s.isalpha()`: nonempty and all characters alphabetic. -/
def pyIsAlphaStr (s : String) : Bool :=
  !s.data.isEmpty && s.data.all Char.isAlpha

/-- `utils._is_valid_french_first_name`: truthy iff the name is nonempty, has
length at least 2, starts with an uppercase character, continues in lowercase,
and is fully alphabetic (mirrors the Python conjunction). -/
def is_valid_french_first_name (name : String) : Bool :=
  !name.data.isEmpty && decide (2 ≤ name.length) &&
    (match name.data with
     | [] => false
     | c :: _ => c.isUpper) &&
    pyIsLowerStr ⟨name.data.drop 1⟩ &&
    pyIsAlphaStr name

/-- `utils._is_valid_french_family_name`: truthy iff the name is nonempty, has
length at least 2, is fully uppercase, and is fully alphabetic. -/
def is_valid_french_family_name (name : String) : Bool :=
  !name.data.isEmpty && decide (2 ≤ name.length) && pyIsUpperStr name && pyIsAlphaStr name

/-- The spec's wording for a valid first name: length at least 2, fully
alphabetic, first character uppercase, every later character lowercase. -/
def specFirstNameOk (s : String) : Prop :=
  2 ≤ s.length ∧ (∀ c ∈ s.data, c.isAlpha = true) ∧
    (∃ c t, s.data = c :: t ∧ c.isUpper = true ∧ ∀ d ∈ t, d.isLower = true)

/-- The spec's wording for a valid family name: length at least 2, fully
alphabetic, every character uppercase. -/
def specFamilyNameOk (s : String) : Prop :=
  2 ≤ s.length ∧ (∀ c ∈ s.data, c.isAlpha = true) ∧ (∀ c ∈ s.data, c.isUpper = true)

theorem cased_of_alpha {c : Char} (h : c.isAlpha = true) : pyCased c = true := by
  simpa [pyCased, Char.isAlpha] using h

theorem string_length_eq_data (s : String) : s.length = s.data.length := rfl

theorem first_name_iff (s : String) :
    is_valid_french_first_name s = true ↔ specFirstNameOk s := by
  obtain ⟨l⟩ := s
  constructor
  · intro h
    simp only [is_valid_french_first_name, Bool.and_eq_true, pyIsAlphaStr,
      pyIsLowerStr, List.all_eq_true, List.any_eq_true] at h
    obtain ⟨⟨⟨⟨hne, hlen⟩, hhead⟩, hlow⟩, hne', halpha⟩ := h
    refine ⟨by simpa [string_length_eq_data] using of_decide_eq_true hlen, halpha, ?_⟩
    match l, hhead with
    | c :: t, hhead =>
      refine ⟨c, t, rfl, hhead, fun d hd => ?_⟩
      have hc := hlow.2 d (by simpa using hd)
      have ha : d.isAlpha = true := halpha d (by simp [hd])
      have : pyCased d = true := cased_of_alpha ha
      simpa [this] using hc
  · rintro ⟨hlen, halpha, c, t, hdat, hcu, htl⟩
    subst hdat
    have hlen' : 1 ≤ t.length := by
      simpa [string_length_eq_data] using hlen
    simp only [is_valid_french_first_name, Bool.and_eq_true, pyIsAlphaStr,
      pyIsLowerStr, List.all_eq_true, List.any_eq_true]
    refine ⟨⟨⟨⟨?_, ?_⟩, hcu⟩, ?_, ?_⟩, ?_, ?_⟩
    · simp
    · exact decide_eq_true (by simpa [string_length_eq_data] using hlen)
    · match t, hlen' with
      | d :: t', _ =>
        exact ⟨d, by simp, cased_of_alpha (halpha d (by simp))⟩
    · intro d hd
      simp only [List.drop_one, List.tail_cons] at hd
      simp [htl d hd]
    · simp
    · exact halpha

theorem family_name_iff (s : String) :
    is_valid_french_family_name s = true ↔ specFamilyNameOk s := by
  obtain ⟨l⟩ := s
  constructor
  · intro h
    simp only [is_valid_french_family_name, Bool.and_eq_true, pyIsAlphaStr,
      pyIsUpperStr, List.all_eq_true, List.any_eq_true] at h
    obtain ⟨⟨⟨hne, hlen⟩, _, hupp⟩, hne', halpha⟩ := h
    refine ⟨by simpa [string_length_eq_data] using of_decide_eq_true hlen, halpha, ?_⟩
    intro c hc
    have := hupp c hc
    have : pyCased c = true := cased_of_alpha (halpha c hc)
    have h2 := hupp c hc
    simpa [this] using h2
  · rintro ⟨hlen, halpha, hupp⟩
    have hlen' : 2 ≤ l.length := by simpa [string_length_eq_data] using hlen
    simp only [is_valid_french_family_name, Bool.and_eq_true, pyIsAlphaStr,
      pyIsUpperStr, List.all_eq_true, List.any_eq_true]
    refine ⟨⟨⟨?_, ?_⟩, ?_, ?_⟩, ?_, ?_⟩
    · match l, hlen' with
      | c :: t, _ => simp
    · exact decide_eq_true (by simpa [string_length_eq_data] using hlen)
    · match l, hlen' with
      | c :: t, _ =>
        exact ⟨c, by simp, cased_of_alpha (halpha c (by simp))⟩
    · intro c hc
      simp [hupp c hc]
    · match l, hlen' with
      | c :: t, _ => simp
    · exact halpha

/-- C2: both validators agree extensionally with the spec's predicates, and
are total on all strings by construction. -/
theorem c2_validators_spec (s : String) :
    (is_valid_french_first_name s = true ↔ specFirstNameOk s) ∧
      (is_valid_french_family_name s = true ↔ specFamilyNameOk s) :=
  ⟨first_name_iff s, family_name_iff s⟩

/-- A token's bounding box; the engine only ever compares `y_min` and `x_min`,
so coordinates are modelled as integers. -/
structure BBox where
  x_min : Int
  x_max : Int
  y_min : Int
  y_max : Int
deriving DecidableEq, Repr

/-- A positioned text token (`{"text": ..., "bbox": ...}`). -/
structure Token where
  text : String
  bbox : BBox
deriving DecidableEq, Repr

/-- A page; `words = none` models a page dict lacking the `"words"` key. -/
structure Page where
  words : Option (List Token)
deriving DecidableEq, Repr

/-- A document; `pages = none` models a dict lacking the `"pages"` key. -/
structure Document where
  pages : Option (List Page)
deriving DecidableEq, Repr

/-- `NameExtractorConfig`; Python's string sets are modelled as lists used
only through membership. -/
structure NameExtractorConfig where
  offset_next_line : Nat := 5
  sort_document : Bool := true
  name_prefixes : List String :=
    ["monsieur", "madame", "mme", "mlle", "mr", "mrs", "Mrs", "Mme", "Mlle"]
  doctor_prefixes : List String := ["dr", "docteur"]
  nom_keywords : List String := ["nom:", "nom", "nom de famille", "famille"]
  prenom_keywords : List String := ["prénom", "prenom"]
  patient_keywords : List String := ["patient:", "patient"]
deriving DecidableEq, Repr

/-- The default configuration (a bare `NameExtractor()`). -/
def defaultConfig : NameExtractorConfig := {}

/-- The exceptions the engine can raise: `InvalidDocumentFormat`, and the
`ValueError` raised by `PatientName._validate`. -/
inductive ExtractErr where
  | invalidDocumentFormat : ExtractErr
  | valueError : ExtractErr
deriving DecidableEq, Repr

/-- The `PatientName` record (field names follow the constructor arguments). -/
structure PatientName where
  first_name_index : Nat
  family_name_index : Nat
  first_name : String
  family_name : String
deriving DecidableEq, Repr

/-- `PatientName.__init__` + `_validate`: construction fails with `ValueError`
unless the first name and then the family name pass their validators. -/
def mkPatientName (first_name_index family_name_index : Nat)
    (first_name family_name : String) : Except ExtractErr PatientName :=
  if is_valid_french_first_name first_name then
    if is_valid_french_family_name family_name then
      .ok ⟨first_name_index, family_name_index, first_name, family_name⟩
    else .error .valueError
  else .error .valueError

/-- Dummy token used only as the (unreachable) default of bounded lookups. -/
def dummyToken : Token := ⟨"", ⟨0, 0, 0, 0⟩⟩

/-- Key order of the first sorting pass: ascending `bbox.y_min`. -/
def leY (a b : Token) : Prop := a.bbox.y_min ≤ b.bbox.y_min

/-- Key order of the second sorting pass: ascending `bbox.x_min`. -/
def leX (a b : Token) : Prop := a.bbox.x_min ≤ b.bbox.x_min

instance : DecidableRel leY := fun a b => inferInstanceAs (Decidable (_ ≤ _))
instance : DecidableRel leX := fun a b => inferInstanceAs (Decidable (_ ≤ _))

instance : IsTotal Token leY := ⟨fun a b => Int.le_total _ _⟩
instance : IsTrans Token leY := ⟨fun _ _ _ => Int.le_trans⟩
instance : IsTotal Token leX := ⟨fun a b => Int.le_total _ _⟩
instance : IsTrans Token leX := ⟨fun _ _ _ => Int.le_trans⟩

/-- The reading-order sort of `detect_patient_name_from_page`: a stable sort
by `y_min`, then a stable sort of that result by `x_min` (Python's `sorted`
is stable; `List.insertionSort` is the stable sort used to model it). -/
def sortTokens (words : List Token) : List Token :=
  (words.insertionSort leY).insertionSort leX

/-- The token order a page scan works on, per `sort_document`. -/
def orderTokens (cfg : NameExtractorConfig) (words : List Token) : List Token :=
  if cfg.sort_document then sortTokens words else words

/-- Loop body of `_detect_patient_name_using_prefix` at loop index `i`
(`continue` branches become `none`; `return` branches become `some`). -/
def prefixSiteStep (cfg : NameExtractorConfig) (sorted_words : List Token)
    (i : Nat) : Option (Except ExtractErr PatientName) :=
  if sorted_words.length ≤ i + 2 then none
  else
    let prefixText := pyLower (sorted_words.getD i dummyToken).text
    if prefixText ∈ cfg.name_prefixes then
      let a := (sorted_words.getD (i + 1) dummyToken).text
      let b := (sorted_words.getD (i + 2) dummyToken).text
      if is_valid_french_first_name a && is_valid_french_family_name b then
        some (mkPatientName (i + 1) (i + 2) a b)
      else if is_valid_french_first_name b && is_valid_french_family_name a then
        some (mkPatientName (i + 2) (i + 1) b a)
      else none
    else none

/-- `_detect_patient_name_using_prefix`: first `return` of the scan wins. -/
def detect_patient_name_using_prefixes (cfg : NameExtractorConfig)
    (sorted_words : List Token) : Except ExtractErr (Option PatientName) :=
  match (List.range sorted_words.length).findSome? (prefixSiteStep cfg sorted_words) with
  | some e => e.map some
  | none => .ok none

/-- The token-text list `_detect_patient_name_using_keywords` scans:
`[w["text"].strip(" :") for w in sorted_words if w["text"].strip()]`. -/
def words_text (sorted_words : List Token) : List String :=
  (sorted_words.filter (fun w => !wsOnly w.text)).map (fun w => stripSpaceColon w.text)

/-- Accumulator of `_try_separate_keywords`: the recorded first-name and
family-name candidates, each a (text, index) pair. -/
abbrev SepState := Option (String × Nat) × Option (String × Nat)

/-- Loop body of `_try_separate_keywords` at index `i` (the `elif` is the
second branch of the nested conditional). -/
def sepStep (cfg : NameExtractorConfig) (words : List String)
    (st : SepState) (i : Nat) : SepState :=
  let word_lower := rstripColon (pyLower (words.getD i ""))
  if word_lower ∈ cfg.nom_keywords ∧ i + 1 < words.length then
    let potential_family := words.getD (i + 1) ""
    if is_valid_french_family_name potential_family then
      (st.1, some (potential_family, i + 1))
    else st
  else if word_lower ∈ cfg.prenom_keywords ∧ i + 1 < words.length then
    let potential_first := words.getD (i + 1) ""
    if is_valid_french_first_name potential_first then
      (some (potential_first, i + 1), st.2)
    else st
  else st

/-- `_try_separate_keywords`. -/
def try_separate_keywords (cfg : NameExtractorConfig) (words : List String) :
    Except ExtractErr (Option PatientName) :=
  match (List.range words.length).foldl (sepStep cfg words) (none, none) with
  | (some (first_name, first_name_idx), some (family_name, family_name_idx)) =>
    if !first_name.data.isEmpty && !family_name.data.isEmpty then
      (mkPatientName first_name_idx family_name_idx first_name family_name).map some
    else .ok none
  | _ => .ok none

/-- Inner window loop of `_try_patient_keyword`, with the iteration count of
`range(j, stop)` made explicit so the recursion is structural; includes the
`break` when `j + 1` falls out of range. -/
def patientWindowGo (words : List String) : Nat → Nat → Option (Nat × String × String)
  | 0, _ => none
  | Nat.succ n, j =>
    if words.length ≤ j + 1 then none
    else
      let current_word := words.getD j ""
      let next_word := words.getD (j + 1) ""
      if is_valid_french_first_name current_word &&
          is_valid_french_family_name next_word then
        some (j, current_word, next_word)
      else patientWindowGo words n (j + 1)

/-- Inner window loop of `_try_patient_keyword`: `for j in range(j, stop)`. -/
def patientWindow (words : List String) (j stop : Nat) :
    Option (Nat × String × String) :=
  patientWindowGo words (stop - j) j

/-- Loop body of `_try_patient_keyword`'s outer scan at index `i`. -/
def patientStep (cfg : NameExtractorConfig) (words : List String) (i : Nat) :
    Option (Nat × String × String) :=
  if rstripColon (pyLower (words.getD i "")) ∈ cfg.patient_keywords then
    patientWindow words (i + 1) (min (i + cfg.offset_next_line) (words.length - 1))
  else none

/-- `_try_patient_keyword`. -/
def try_patient_keyword (cfg : NameExtractorConfig) (words : List String) :
    Except ExtractErr (Option PatientName) :=
  match (List.range words.length).findSome? (patientStep cfg words) with
  | some (j, current_word, next_word) =>
    (mkPatientName j (j + 1) current_word next_word).map some
  | none => .ok none

/-- `_detect_patient_name_using_keywords`: build `words_text`, then try the
separate-keyword sub-strategy, then the patient-keyword sub-strategy. -/
def detect_patient_name_using_keywords (cfg : NameExtractorConfig)
    (sorted_words : List Token) : Except ExtractErr (Option PatientName) := do
  let wt := words_text sorted_words
  match ← try_separate_keywords cfg wt with
  | some result => return some result
  | none =>
    match ← try_patient_keyword cfg wt with
    | some result => return some result
    | none => return none

/-- `detect_patient_name_from_page`. -/
def detect_patient_name_from_page (cfg : NameExtractorConfig) (page : Page) :
    Except ExtractErr (Option PatientName) :=
  match page.words with
  | none => .error .invalidDocumentFormat
  | some words =>
    if words.isEmpty then .ok none
    else
      let sorted_words := orderTokens cfg words
      do
        match ← detect_patient_name_using_prefixes cfg sorted_words with
        | some detected => return some detected
        | none =>
          match ← detect_patient_name_using_keywords cfg sorted_words with
          | some detected => return some detected
          | none => return none

/-- The page loop of `extract_patient_name_from_document`. -/
def extractPages (cfg : NameExtractorConfig) :
    List Page → Except ExtractErr (Option PatientName)
  | [] => .ok none
  | page :: rest => do
    match ← detect_patient_name_from_page cfg page with
    | some patient_name => return some patient_name
    | none => extractPages cfg rest

/-- `extract_patient_name_from_document`. -/
def extract_patient_name_from_document (cfg : NameExtractorConfig)
    (document : Document) : Except ExtractErr (Option PatientName) :=
  match document.pages with
  | none => .error .invalidDocumentFormat
  | some pages => extractPages cfg pages

/-! ### Stable sorting: generic machinery

`List.insertionSort` is a stable sort; the lemmas below show that a stable
sort is determined by sortedness together with the order of each equivalence
class of the sort key, which settles what two chained stable sorts compute.
-/

section StableSort

variable {α : Type} (r : α → α → Prop) [DecidableRel r]

/-- The equivalence class of `c` under the total preorder `r`, as a filter. -/
def classOf (c : α) : α → Bool := fun x => decide (r x c) && decide (r c x)

/-- A stable sort does not disturb any subsequence that is already pairwise
related, in particular the subsequence selected by any filter whose matches
are pairwise related. -/
theorem filter_insertionSort_eq (p : α → Bool) (l : List α)
    (hp : (l.filter p).Pairwise r) :
    (l.insertionSort r).filter p = l.filter p := by
  have hsub : List.Sublist (l.filter p) (l.insertionSort r) :=
    List.sublist_insertionSort hp (List.filter_sublist l)
  have hself : (l.filter p).filter p = l.filter p :=
    List.filter_eq_self.mpr (fun a ha => List.of_mem_filter ha)
  have hsub2 : List.Sublist (l.filter p) ((l.insertionSort r).filter p) := by
    have := hsub.filter p
    rwa [hself] at this
  have hlen : ((l.insertionSort r).filter p).length = (l.filter p).length :=
    ((List.perm_insertionSort r l).filter p).length_eq
  exact (hsub2.eq_of_length hlen.symm).symm

variable [IsTotal α r] [IsTrans α r]

theorem classOf_self (c : α) : classOf r c c = true := by
  rcases @IsTotal.total α r _ c c with h | h <;> simp [classOf, h]

/-- Two sorted lists with identical equivalence-class subsequences are equal:
uniqueness of the stable sort. -/
theorem eq_of_sorted_of_class_filter :
    ∀ (s t : List α), s.Sorted r → t.Sorted r →
      (∀ c, s.filter (classOf r c) = t.filter (classOf r c)) → s = t := by
  intro s
  induction s with
  | nil =>
    intro t _ _ hf
    cases t with
    | nil => rfl
    | cons b t' =>
      exfalso
      have := hf b
      rw [List.filter_cons] at this
      simp [classOf_self] at this
  | cons a s' ih =>
    intro t hs ht hf
    cases t with
    | nil =>
      exfalso
      have := hf a
      rw [List.filter_cons] at this
      simp [classOf_self] at this
    | cons b t' =>
      have hfa := hf a
      have hfb := hf b
      have hlhs_a : (a :: s').filter (classOf r a) = a :: s'.filter (classOf r a) := by
        rw [List.filter_cons, if_pos (classOf_self r a)]
      have hrhs_b : (b :: t').filter (classOf r b) = b :: t'.filter (classOf r b) := by
        rw [List.filter_cons, if_pos (classOf_self r b)]
      -- r b a: some element of b :: t' is in a's class
      have hba : r b a := by
        have hmem : ∃ x ∈ b :: t', classOf r a x = true := by
          by_contra hno
          push_neg at hno
          have hnil : (b :: t').filter (classOf r a) = [] :=
            List.filter_eq_nil_iff.mpr (fun x hx => by simpa using hno x hx)
          have h0 := hfa
          rw [hnil, hlhs_a] at h0
          exact List.cons_ne_nil _ _ h0
        obtain ⟨x, hx, hcx⟩ := hmem
        simp only [classOf, Bool.and_eq_true, decide_eq_true_eq] at hcx
        rcases List.mem_cons.mp hx with rfl | hx'
        · exact hcx.1
        · exact Trans.trans (List.rel_of_sorted_cons ht x hx') hcx.1
      -- r a b: some element of a :: s' is in b's class
      have hab : r a b := by
        have hmem : ∃ y ∈ a :: s', classOf r b y = true := by
          by_contra hno
          push_neg at hno
          have hnil : (a :: s').filter (classOf r b) = [] :=
            List.filter_eq_nil_iff.mpr (fun y hy => by simpa using hno y hy)
          have h0 := hfb
          rw [hnil, hrhs_b] at h0
          exact List.cons_ne_nil _ _ h0.symm
        obtain ⟨y, hy, hcy⟩ := hmem
        simp only [classOf, Bool.and_eq_true, decide_eq_true_eq] at hcy
        rcases List.mem_cons.mp hy with rfl | hy'
        · exact hcy.1
        · exact Trans.trans (List.rel_of_sorted_cons hs y hy') hcy.1
      have hcab : classOf r a b = true := by
        simp [classOf, hab, hba]
      have hhead : a = b := by
        have h0 := hfa
        rw [hlhs_a, List.filter_cons, if_pos hcab] at h0
        injection h0
      subst hhead
      have htails : s' = t' := by
        refine ih t' hs.of_cons ht.of_cons ?_
        intro c
        have hc := hf c
        rw [List.filter_cons, List.filter_cons] at hc
        by_cases hac : classOf r c a = true
        · rw [if_pos hac, if_pos hac] at hc
          injection hc
        · rwa [if_neg hac, if_neg hac] at hc
      rw [htails]

end StableSort

/-- The spec's composite key: lexicographic on `(y_min, x_min)`. -/
def lexYX (a b : Token) : Prop :=
  a.bbox.y_min < b.bbox.y_min ∨
    (a.bbox.y_min = b.bbox.y_min ∧ a.bbox.x_min ≤ b.bbox.x_min)

/-- The key the implementation's two-pass sort actually realises:
lexicographic on `(x_min, y_min)`. -/
def lexXY (a b : Token) : Prop :=
  a.bbox.x_min < b.bbox.x_min ∨
    (a.bbox.x_min = b.bbox.x_min ∧ a.bbox.y_min ≤ b.bbox.y_min)

instance : DecidableRel lexYX := fun _ _ => inferInstanceAs (Decidable (_ ∨ _))
instance : DecidableRel lexXY := fun _ _ => inferInstanceAs (Decidable (_ ∨ _))

instance : IsTotal Token lexYX :=
  ⟨fun a b => by unfold lexYX; omega⟩
instance : IsTrans Token lexYX :=
  ⟨fun a b c hab hbc => by unfold lexYX at *; omega⟩
instance : IsTotal Token lexXY :=
  ⟨fun a b => by unfold lexXY; omega⟩
instance : IsTrans Token lexXY :=
  ⟨fun a b c hab hbc => by unfold lexXY at *; omega⟩

/-- The spec's claimed reading order: the stable lexicographic sort by
`(y_min, x_min)`. -/
def stable_lex_sort_y_x (words : List Token) : List Token :=
  words.insertionSort lexYX

/-- The stable lexicographic sort by `(x_min, y_min)`. -/
def stable_lex_sort_x_y (words : List Token) : List Token :=
  words.insertionSort lexXY

/-- A filter whose matches are pairwise related selects a pairwise-related
subsequence. -/
theorem pairwise_filter_of_matches {α : Type} (p : α → Bool) (R : α → α → Prop)
    (h : ∀ x y, p x = true → p y = true → R x y) (l : List α) :
    (l.filter p).Pairwise R :=
  List.pairwise_of_forall_mem_list
    (fun a ha b hb => h a b (List.of_mem_filter ha) (List.of_mem_filter hb))

/-- A list sorted by `x_min` whose `x_min`-classes are sorted by `y_min` is
sorted lexicographically by `(x_min, y_min)`. -/
theorem sorted_lexXY_of_classes :
    ∀ s : List Token, s.Sorted leX →
      (∀ c : Int, (s.filter (fun t => decide (t.bbox.x_min = c))).Sorted leY) →
      s.Sorted lexXY := by
  intro s
  induction s with
  | nil => intro _ _; exact List.sorted_nil
  | cons a s' ih =>
    intro hx hy
    rw [List.sorted_cons]
    refine ⟨?_, ih hx.of_cons ?_⟩
    · intro b hb
      have hxb : leX a b := List.rel_of_sorted_cons hx b hb
      rcases lt_or_eq_of_le (hxb : a.bbox.x_min ≤ b.bbox.x_min) with hlt | heq
      · exact Or.inl hlt
      · refine Or.inr ⟨heq, ?_⟩
        have h0 := hy a.bbox.x_min
        rw [List.filter_cons, if_pos (by simp)] at h0
        have hbmem : b ∈ s'.filter (fun t => decide (t.bbox.x_min = a.bbox.x_min)) :=
          List.mem_filter.mpr ⟨hb, by simp [heq.symm]⟩
        exact List.rel_of_sorted_cons h0 b hbmem
    · intro c
      have h0 := hy c
      rw [List.filter_cons] at h0
      by_cases hc : (decide (a.bbox.x_min = c) : Bool) = true
      · rw [if_pos hc] at h0
        exact h0.of_cons
      · rwa [if_neg hc] at h0

/-- Membership in a `lexXY` equivalence class means equal coordinates. -/
theorem classOf_lexXY_iff (c x : Token) :
    classOf lexXY c x = true ↔
      x.bbox.x_min = c.bbox.x_min ∧ x.bbox.y_min = c.bbox.y_min := by
  simp only [classOf, Bool.and_eq_true, decide_eq_true_eq, lexXY]
  omega

/-- The two sorting passes of the implementation compute the stable
lexicographic sort by `(x_min, y_min)`. -/
theorem sortTokens_eq_stable_lex_x_y (l : List Token) :
    sortTokens l = stable_lex_sort_x_y l := by
  apply eq_of_sorted_of_class_filter lexXY
  · -- the two-pass result is sorted lexicographically by (x, y)
    apply sorted_lexXY_of_classes
    · exact List.sorted_insertionSort leX _
    · intro c
      have h1 : (sortTokens l).filter (fun t => decide (t.bbox.x_min = c)) =
          (l.insertionSort leY).filter (fun t => decide (t.bbox.x_min = c)) := by
        apply filter_insertionSort_eq leX
        apply pairwise_filter_of_matches
        intro x y hx hy
        simp only [decide_eq_true_eq] at hx hy
        show x.bbox.x_min ≤ y.bbox.x_min
        omega
      rw [h1]
      exact (List.sorted_insertionSort leY l).filter _
  · exact List.sorted_insertionSort lexXY l
  · intro c
    have h1 : (sortTokens l).filter (classOf lexXY c) =
        (l.insertionSort leY).filter (classOf lexXY c) := by
      apply filter_insertionSort_eq leX
      apply pairwise_filter_of_matches
      intro x y hx hy
      have hx' := (classOf_lexXY_iff c x).mp hx
      have hy' := (classOf_lexXY_iff c y).mp hy
      show x.bbox.x_min ≤ y.bbox.x_min
      omega
    have h2 : (l.insertionSort leY).filter (classOf lexXY c) =
        l.filter (classOf lexXY c) := by
      apply filter_insertionSort_eq leY
      apply pairwise_filter_of_matches
      intro x y hx hy
      have hx' := (classOf_lexXY_iff c x).mp hx
      have hy' := (classOf_lexXY_iff c y).mp hy
      show x.bbox.y_min ≤ y.bbox.y_min
      omega
    have h3 : (stable_lex_sort_x_y l).filter (classOf lexXY c) =
        l.filter (classOf lexXY c) := by
      apply filter_insertionSort_eq lexXY
      apply pairwise_filter_of_matches
      intro x y hx hy
      have hx' := (classOf_lexXY_iff c x).mp hx
      have hy' := (classOf_lexXY_iff c y).mp hy
      show lexXY x y
      unfold lexXY
      omega
    rw [h1, h2, h3]

/-- C1 (amended): with `sort_document = true` the reading order produced by
the implementation — a stable sort by `bbox.y_min` ascending followed by a
stable sort of that result by `bbox.x_min` ascending — equals the stable
lexicographic sort by the composite key `(x_min, y_min)` (the second pass
makes `x_min` the primary key), and the result is sorted under that
lexicographic order, so a token with strictly smaller `x_min` always comes
first. -/
theorem c1_two_pass_sort_is_lex_x_y (words : List Token) :
    sortTokens words = stable_lex_sort_x_y words ∧
      (sortTokens words).Sorted lexXY :=
  ⟨sortTokens_eq_stable_lex_x_y words, by
    rw [sortTokens_eq_stable_lex_x_y]
    exact List.sorted_insertionSort lexXY words⟩

/-- C1 counterexample: on two tokens where the first has strictly smaller
`y_min` but larger `x_min`, the implementation's two-pass sort puts the
larger-`y_min` token first, so it differs from the stable lexicographic sort
by `(y_min, x_min)` and violates the claimed `y_min` ordering. -/
theorem c1_counterexample :
    sortTokens [⟨"a", ⟨1, 1, 0, 0⟩⟩, ⟨"b", ⟨0, 0, 1, 1⟩⟩] =
        [⟨"b", ⟨0, 0, 1, 1⟩⟩, ⟨"a", ⟨1, 1, 0, 0⟩⟩] ∧
      stable_lex_sort_y_x [⟨"a", ⟨1, 1, 0, 0⟩⟩, ⟨"b", ⟨0, 0, 1, 1⟩⟩] =
        [⟨"a", ⟨1, 1, 0, 0⟩⟩, ⟨"b", ⟨0, 0, 1, 1⟩⟩] ∧
      sortTokens [⟨"a", ⟨1, 1, 0, 0⟩⟩, ⟨"b", ⟨0, 0, 1, 1⟩⟩] ≠
        stable_lex_sort_y_x [⟨"a", ⟨1, 1, 0, 0⟩⟩, ⟨"b", ⟨0, 0, 1, 1⟩⟩] ∧
      (⟨"a", ⟨1, 1, 0, 0⟩⟩ : Token).bbox.y_min < (⟨"b", ⟨0, 0, 1, 1⟩⟩ : Token).bbox.y_min := by
  refine ⟨by decide, by decide, ?_, by decide⟩
  intro h
  have h1 : sortTokens [⟨"a", ⟨1, 1, 0, 0⟩⟩, ⟨"b", ⟨0, 0, 1, 1⟩⟩] =
      [⟨"b", ⟨0, 0, 1, 1⟩⟩, ⟨"a", ⟨1, 1, 0, 0⟩⟩] := by decide
  have h2 : stable_lex_sort_y_x [⟨"a", ⟨1, 1, 0, 0⟩⟩, ⟨"b", ⟨0, 0, 1, 1⟩⟩] =
      [⟨"a", ⟨1, 1, 0, 0⟩⟩, ⟨"b", ⟨0, 0, 1, 1⟩⟩] := by decide
  rw [h1, h2] at h
  exact absurd h (by decide)

/-! ### Scan-loop helpers

The Python loops are modelled as folds / first-match searches over index
ranges; the lemmas below characterise them extensionally.
-/

/-- Overwriting accumulation: a new hit replaces the stored value. -/
def overwrite {β : Type} (o h : Option β) : Option β :=
  match h with
  | some r => some r
  | none => o

theorem overwrite_none {β : Type} (o : Option β) : overwrite o none = o := rfl

theorem overwrite_none_left {β : Type} (h : Option β) : overwrite none h = h := by
  cases h <;> rfl

theorem overwrite_assoc {β : Type} (o h k : Option β) :
    overwrite (overwrite o h) k = overwrite o (overwrite h k) := by
  cases k <;> rfl

theorem getLast?_cons_overwrite {β : Type} (b : β) (m : List β) :
    (b :: m).getLast? = overwrite (some b) m.getLast? := by
  cases m with
  | nil => rfl
  | cons c m' =>
    rw [List.getLast?_cons_cons,
      List.getLast?_eq_getLast (c :: m') (by simp)]
    rfl

/-- A fold whose step overwrites the two components independently computes,
for each component, the last hit of the scan (or keeps the initial value). -/
theorem foldl_overwrite_pair {ι β γ : Type}
    (step : (Option β × Option γ) → ι → (Option β × Option γ))
    (f : ι → Option β) (g : ι → Option γ)
    (hstep : ∀ st i, step st i = (overwrite st.1 (f i), overwrite st.2 (g i))) :
    ∀ (l : List ι) (st : Option β × Option γ),
      l.foldl step st =
        (overwrite st.1 ((l.filterMap f).getLast?),
         overwrite st.2 ((l.filterMap g).getLast?)) := by
  intro l
  induction l with
  | nil => intro st; simp [overwrite_none]
  | cons a l ih =>
    intro st
    rw [List.foldl_cons, hstep, ih]
    have hf : ((a :: l).filterMap f).getLast? =
        overwrite (f a) ((l.filterMap f).getLast?) := by
      rw [List.filterMap_cons]
      cases h : f a with
      | none => rw [overwrite_none_left]
      | some b => exact getLast?_cons_overwrite b _
    have hg : ((a :: l).filterMap g).getLast? =
        overwrite (g a) ((l.filterMap g).getLast?) := by
      rw [List.filterMap_cons]
      cases h : g a with
      | none => rw [overwrite_none_left]
      | some b => exact getLast?_cons_overwrite b _
    rw [hf, hg, overwrite_assoc, overwrite_assoc]

/-- First-match search over `range' s n`, `some` case: the hit is the
earliest index in the window. -/
theorem findSome?_range'_eq_some {β : Type} (f : Nat → Option β) :
    ∀ (n s : Nat) (b : β),
      (List.range' s n).findSome? f = some b ↔
        ∃ i, s ≤ i ∧ i < s + n ∧ f i = some b ∧
          ∀ k, s ≤ k → k < i → f k = none := by
  intro n
  induction n with
  | zero =>
    intro s b
    simp only [List.range', List.findSome?_nil]
    constructor
    · intro h; cases h
    · rintro ⟨i, h1, h2, _, _⟩; omega
  | succ n ih =>
    intro s b
    rw [show List.range' s (n + 1) = s :: List.range' (s + 1) n from List.range'_succ s n 1]
    rw [List.findSome?_cons]
    cases hfs : f s with
    | some c =>
      constructor
      · intro h
        refine ⟨s, le_refl s, by omega, by rw [hfs]; exact h, ?_⟩
        intro k hk1 hk2; omega
      · rintro ⟨i, h1, h2, h3, h4⟩
        rcases Nat.eq_or_lt_of_le h1 with rfl | hlt
        · rw [hfs] at h3; exact h3
        · exact absurd hfs (by rw [h4 s (le_refl s) hlt]; simp)
    | none =>
      rw [ih (s + 1) b]
      constructor
      · rintro ⟨i, h1, h2, h3, h4⟩
        refine ⟨i, by omega, by omega, h3, ?_⟩
        intro k hk1 hk2
        rcases Nat.eq_or_lt_of_le hk1 with rfl | hklt
        · exact hfs
        · exact h4 k hklt hk2
      · rintro ⟨i, h1, h2, h3, h4⟩
        have hi : s + 1 ≤ i := by
          rcases Nat.eq_or_lt_of_le h1 with rfl | hlt
          · rw [hfs] at h3; cases h3
          · exact hlt
        exact ⟨i, hi, by omega, h3, fun k hk1 hk2 => h4 k (by omega) hk2⟩

/-- First-match search over `range' s n`, `none` case: no index hits. -/
theorem findSome?_range'_eq_none {β : Type} (f : Nat → Option β) :
    ∀ (n s : Nat),
      (List.range' s n).findSome? f = none ↔
        ∀ i, s ≤ i → i < s + n → f i = none := by
  intro n
  induction n with
  | zero =>
    intro s
    rw [show List.range' s 0 = [] from rfl, List.findSome?_nil]
    exact ⟨fun _ i h1 h2 => ((by omega : False).elim), fun _ => rfl⟩
  | succ n ih =>
    intro s
    rw [show List.range' s (n + 1) = s :: List.range' (s + 1) n from List.range'_succ s n 1]
    rw [List.findSome?_cons]
    cases hfs : f s with
    | some c =>
      constructor
      · intro h; cases h
      · intro h
        exact absurd hfs (by rw [h s (le_refl s) (by omega)]; simp)
    | none =>
      rw [ih (s + 1)]
      constructor
      · intro h i h1 h2
        rcases Nat.eq_or_lt_of_le h1 with rfl | hlt
        · exact hfs
        · exact h i hlt (by omega)
      · intro h i h1 h2
        exact h i (by omega) (by omega)

/-- First-match search over `range n`. -/
theorem findSome?_range_eq_some {β : Type} (f : Nat → Option β) (n : Nat) (b : β) :
    (List.range n).findSome? f = some b ↔
      ∃ i, i < n ∧ f i = some b ∧ ∀ k, k < i → f k = none := by
  rw [List.range_eq_range', findSome?_range'_eq_some]
  constructor
  · rintro ⟨i, _, h2, h3, h4⟩
    exact ⟨i, by omega, h3, fun k hk => h4 k (Nat.zero_le k) hk⟩
  · rintro ⟨i, h1, h2, h3⟩
    exact ⟨i, Nat.zero_le i, by omega, h2, fun k _ hk => h3 k hk⟩

/-- No-match search over `range n`. -/
theorem findSome?_range_eq_none {β : Type} (f : Nat → Option β) (n : Nat) :
    (List.range n).findSome? f = none ↔ ∀ i, i < n → f i = none := by
  rw [List.range_eq_range', findSome?_range'_eq_none]
  constructor
  · intro h i hi; exact h i (Nat.zero_le i) (by omega)
  · intro h i _ hi; exact h i (by omega)

/-- Construction succeeds exactly on validated names. -/
theorem mkPatientName_ok (fi li : Nat) (fn ln : String)
    (h1 : is_valid_french_first_name fn = true)
    (h2 : is_valid_french_family_name ln = true) :
    mkPatientName fi li fn ln = .ok ⟨fi, li, fn, ln⟩ := by
  rw [mkPatientName, if_pos h1, if_pos h2]

/-- A validator-passing first name is nonempty. -/
theorem first_name_nonempty {s : String}
    (h : is_valid_french_first_name s = true) : s.data.isEmpty = false := by
  rw [is_valid_french_first_name] at h
  simp only [Bool.and_eq_true, Bool.not_eq_true'] at h
  exact h.1.1.1.1

/-- A validator-passing family name is nonempty. -/
theorem family_name_nonempty {s : String}
    (h : is_valid_french_family_name s = true) : s.data.isEmpty = false := by
  rw [is_valid_french_family_name] at h
  simp only [Bool.and_eq_true, Bool.not_eq_true'] at h
  exact h.1.1.1

/-- The family-name hit of the separate-keyword scan at index `i`: the token
(lowercased, trailing colons removed) matches a family-name-label keyword, a
following token exists, and it passes the family-name validator. -/
def sepFamilyHit (cfg : NameExtractorConfig) (words : List String) (i : Nat) :
    Option (String × Nat) :=
  if rstripColon (pyLower (words.getD i "")) ∈ cfg.nom_keywords ∧ i + 1 < words.length then
    if is_valid_french_family_name (words.getD (i + 1) "") then
      some (words.getD (i + 1) "", i + 1)
    else none
  else none

/-- The first-name hit as the code computes it: the `elif` skips the
first-name branch whenever the family-name branch's condition held. -/
def sepFirstHitCode (cfg : NameExtractorConfig) (words : List String) (i : Nat) :
    Option (String × Nat) :=
  if rstripColon (pyLower (words.getD i "")) ∈ cfg.nom_keywords ∧ i + 1 < words.length then
    none
  else if rstripColon (pyLower (words.getD i "")) ∈ cfg.prenom_keywords ∧ i + 1 < words.length then
    if is_valid_french_first_name (words.getD (i + 1) "") then
      some (words.getD (i + 1) "", i + 1)
    else none
  else none

/-- The first-name hit as the claim words it: the token matches a
first-name-label keyword, a following token exists, and it validates. -/
def sepFirstHitSpec (cfg : NameExtractorConfig) (words : List String) (i : Nat) :
    Option (String × Nat) :=
  if rstripColon (pyLower (words.getD i "")) ∈ cfg.prenom_keywords ∧ i + 1 < words.length then
    if is_valid_french_first_name (words.getD (i + 1) "") then
      some (words.getD (i + 1) "", i + 1)
    else none
  else none

/-- With disjoint keyword sets the `elif` is unobservable. -/
theorem sepFirstHit_code_eq_spec (cfg : NameExtractorConfig) (words : List String)
    (hd : ∀ s, s ∈ cfg.nom_keywords → s ∉ cfg.prenom_keywords) (i : Nat) :
    sepFirstHitCode cfg words i = sepFirstHitSpec cfg words i := by
  rw [sepFirstHitCode, sepFirstHitSpec]
  by_cases h1 : rstripColon (pyLower (words.getD i "")) ∈ cfg.nom_keywords ∧
      i + 1 < words.length
  · rw [if_pos h1, if_neg (fun h2 => hd _ h1.1 h2.1)]
  · rw [if_neg h1]

/-- The loop body of `_try_separate_keywords` updates the two accumulators by
overwriting with the respective hits. -/
theorem sepStep_shape (cfg : NameExtractorConfig) (words : List String)
    (st : SepState) (i : Nat) :
    sepStep cfg words st i =
      (overwrite st.1 (sepFirstHitCode cfg words i),
       overwrite st.2 (sepFamilyHit cfg words i)) := by
  rw [sepStep, sepFirstHitCode, sepFamilyHit]
  by_cases h1 : rstripColon (pyLower (words.getD i "")) ∈ cfg.nom_keywords ∧
      i + 1 < words.length
  · rw [if_pos h1, if_pos h1, if_pos h1]
    by_cases h2 : is_valid_french_family_name (words.getD (i + 1) "") = true
    · rw [if_pos h2, if_pos h2]; rfl
    · rw [if_neg h2, if_neg h2]; rfl
  · rw [if_neg h1, if_neg h1, if_neg h1]
    by_cases h2 : rstripColon (pyLower (words.getD i "")) ∈ cfg.prenom_keywords ∧
        i + 1 < words.length
    · rw [if_pos h2, if_pos h2]
      by_cases h3 : is_valid_french_first_name (words.getD (i + 1) "") = true
      · rw [if_pos h3, if_pos h3]; rfl
      · rw [if_neg h3, if_neg h3]; rfl
    · rw [if_neg h2, if_neg h2]; rfl

/-- What the separate-keyword sub-strategy computes according to the claim:
the last valid match of each kind, combined iff both kinds were recorded. -/
def sepSpec (cfg : NameExtractorConfig) (words : List String) : Option PatientName :=
  match ((List.range words.length).filterMap (sepFirstHitSpec cfg words)).getLast?,
      ((List.range words.length).filterMap (sepFamilyHit cfg words)).getLast? with
  | some (first_name, first_name_idx), some (family_name, family_name_idx) =>
    some ⟨first_name_idx, family_name_idx, first_name, family_name⟩
  | _, _ => none

/-- Soundness of a family hit. -/
theorem sepFamilyHit_sound {cfg : NameExtractorConfig} {words : List String}
    {i : Nat} {s : String} {k : Nat}
    (h : sepFamilyHit cfg words i = some (s, k)) :
    k = i + 1 ∧ i + 1 < words.length ∧ words.getD (i + 1) "" = s ∧
      is_valid_french_family_name s = true := by
  rw [sepFamilyHit] at h
  by_cases h1 : rstripColon (pyLower (words.getD i "")) ∈ cfg.nom_keywords ∧
      i + 1 < words.length
  · rw [if_pos h1] at h
    by_cases h2 : is_valid_french_family_name (words.getD (i + 1) "") = true
    · rw [if_pos h2] at h
      injection h with h
      injection h with hs hk
      exact ⟨hk.symm, h1.2, hs, hs ▸ h2⟩
    · rw [if_neg h2] at h; cases h
  · rw [if_neg h1] at h; cases h

/-- Soundness of a first-name hit (claim form). -/
theorem sepFirstHitSpec_sound {cfg : NameExtractorConfig} {words : List String}
    {i : Nat} {s : String} {k : Nat}
    (h : sepFirstHitSpec cfg words i = some (s, k)) :
    k = i + 1 ∧ i + 1 < words.length ∧ words.getD (i + 1) "" = s ∧
      is_valid_french_first_name s = true := by
  rw [sepFirstHitSpec] at h
  by_cases h1 : rstripColon (pyLower (words.getD i "")) ∈ cfg.prenom_keywords ∧
      i + 1 < words.length
  · rw [if_pos h1] at h
    by_cases h2 : is_valid_french_first_name (words.getD (i + 1) "") = true
    · rw [if_pos h2] at h
      injection h with h
      injection h with hs hk
      exact ⟨hk.symm, h1.2, hs, hs ▸ h2⟩
    · rw [if_neg h2] at h; cases h
  · rw [if_neg h1] at h; cases h

/-- A recorded value of the family accumulator comes from some hit. -/
theorem getLast?_filterMap_sound {β : Type} {f : Nat → Option β} {n : Nat} {v : β}
    (h : ((List.range n).filterMap f).getLast? = some v) :
    ∃ i, i < n ∧ f i = some v := by
  have hmem : v ∈ (List.range n).filterMap f := List.mem_of_mem_getLast? h
  obtain ⟨i, hi, hfi⟩ := List.mem_filterMap.mp hmem
  exact ⟨i, List.mem_range.mp hi, hfi⟩

/-- Characterisation of `_try_separate_keywords` for disjoint keyword sets:
the scan records the last valid match of each kind independently and combines
them iff both kinds were recorded. -/
theorem try_separate_keywords_eq (cfg : NameExtractorConfig) (words : List String)
    (hd : ∀ s, s ∈ cfg.nom_keywords → s ∉ cfg.prenom_keywords) :
    try_separate_keywords cfg words = .ok (sepSpec cfg words) := by
  rw [try_separate_keywords,
    foldl_overwrite_pair (sepStep cfg words) (sepFirstHitCode cfg words)
      (sepFamilyHit cfg words) (sepStep_shape cfg words) (List.range words.length)
      (none, none),
    overwrite_none_left, overwrite_none_left,
    List.filterMap_congr (fun i _ => sepFirstHit_code_eq_spec cfg words hd i),
    sepSpec]
  cases hfst : ((List.range words.length).filterMap (sepFirstHitSpec cfg words)).getLast? with
  | none => rfl
  | some vf =>
    cases hfam : ((List.range words.length).filterMap (sepFamilyHit cfg words)).getLast? with
    | none => rfl
    | some vl =>
      obtain ⟨fn, fi⟩ := vf
      obtain ⟨ln, li⟩ := vl
      obtain ⟨i1, _, hhit1⟩ := getLast?_filterMap_sound hfst
      obtain ⟨i2, _, hhit2⟩ := getLast?_filterMap_sound hfam
      obtain ⟨_, _, _, hval1⟩ := sepFirstHitSpec_sound hhit1
      obtain ⟨_, _, _, hval2⟩ := sepFamilyHit_sound hhit2
      have hne1 : fn.data.isEmpty = false := first_name_nonempty hval1
      have hne2 : ln.data.isEmpty = false := family_name_nonempty hval2
      simp only [hne1, hne2, Bool.not_false, Bool.and_self, if_true]
      rw [mkPatientName_ok fi li fn ln hval1 hval2]
      rfl

/-- The default keyword sets for family-name labels and first-name labels are
disjoint, so the `elif` in the scan is unobservable. -/
theorem defaultConfig_keywords_disjoint :
    ∀ s, s ∈ defaultConfig.nom_keywords → s ∉ defaultConfig.prenom_keywords := by
  intro s hs hs'
  have h1 : defaultConfig.nom_keywords = ["nom:", "nom", "nom de famille", "famille"] := rfl
  rw [h1] at hs
  have hs2 : s = "nom:" ∨ s = "nom" ∨ s = "nom de famille" ∨ s = "famille" := by
    simpa using hs
  rcases hs2 with rfl | rfl | rfl | rfl <;> exact absurd hs' (by decide)

/-- C5: the separate-keyword sub-strategy records, for each kind
independently, the last token following a matching label that passes the
corresponding validator (later valid matches overwrite earlier ones), and
returns a combined candidate iff both kinds were recorded after the full
scan; on the scenario tokens `["Nom:","MARTIN","Prénom:","Pierre"]` it yields
first name "Pierre" and family name "MARTIN". -/
theorem c5_separate_keywords_last_match (words : List String) :
    try_separate_keywords defaultConfig words = .ok (sepSpec defaultConfig words) ∧
      detect_patient_name_using_keywords defaultConfig
          [⟨"Nom:", ⟨0, 0, 0, 0⟩⟩, ⟨"MARTIN", ⟨0, 0, 0, 0⟩⟩,
           ⟨"Prénom:", ⟨0, 0, 0, 0⟩⟩, ⟨"Pierre", ⟨0, 0, 0, 0⟩⟩] =
        .ok (some ⟨3, 1, "Pierre", "MARTIN"⟩) :=
  ⟨try_separate_keywords_eq defaultConfig words defaultConfig_keywords_disjoint,
    by rfl⟩

/-- The adjacent validated pair test of the patient-keyword window at
index `j`: `j + 1` must be in range, token `j` must validate as a first name
and token `j + 1` as a family name. -/
def patientPairAt (words : List String) (j : Nat) : Option (Nat × String × String) :=
  if j + 1 < words.length ∧
      is_valid_french_first_name (words.getD j "") = true ∧
      is_valid_french_family_name (words.getD (j + 1) "") = true then
    some (j, words.getD j "", words.getD (j + 1) "")
  else none

/-- The window loop returns the first validated adjacent pair of its
window. -/
theorem patientWindowGo_eq_findSome? (words : List String) :
    ∀ (n j : Nat), patientWindowGo words n j =
      (List.range' j n).findSome? (patientPairAt words) := by
  intro n
  induction n with
  | zero =>
    intro j
    rfl
  | succ n ih =>
    intro j
    rw [patientWindowGo]
    rw [show List.range' j (n + 1) = j :: List.range' (j + 1) n from List.range'_succ j n 1,
      List.findSome?_cons]
    by_cases hb : words.length ≤ j + 1
    · rw [if_pos hb]
      have h1 : patientPairAt words j = none := by
        rw [patientPairAt, if_neg]
        rintro ⟨h, _⟩; omega
      rw [h1]
      symm
      rw [findSome?_range'_eq_none]
      intro i hi _
      rw [patientPairAt, if_neg]
      rintro ⟨h, _⟩; omega
    · rw [if_neg hb]
      by_cases hv : (is_valid_french_first_name (words.getD j "") &&
          is_valid_french_family_name (words.getD (j + 1) "")) = true
      · rw [if_pos hv]
        have h1 : patientPairAt words j =
            some (j, words.getD j "", words.getD (j + 1) "") := by
          rw [patientPairAt, if_pos]
          exact ⟨by omega, (Bool.and_eq_true _ _).mp hv |>.1,
            (Bool.and_eq_true _ _).mp hv |>.2⟩
        rw [h1]
      · rw [if_neg hv]
        have h1 : patientPairAt words j = none := by
          rw [patientPairAt, if_neg]
          rintro ⟨_, hv1, hv2⟩
          exact hv ((Bool.and_eq_true _ _).mpr ⟨hv1, hv2⟩)
        rw [h1]
        exact ih (j + 1)

/-- The patient-keyword hit at scan index `i`, as the claim words it: when
the token matches a patient-label keyword, search the window of indices `j`
from `i + 1` up to but excluding `min(i + lookahead, length - 1)` for the
first validated adjacent pair. -/
def patientHitSpec (cfg : NameExtractorConfig) (words : List String) (i : Nat) :
    Option (Nat × String × String) :=
  if rstripColon (pyLower (words.getD i "")) ∈ cfg.patient_keywords then
    (List.range' (i + 1)
        (min (i + cfg.offset_next_line) (words.length - 1) - (i + 1))).findSome?
      (patientPairAt words)
  else none

/-- What the patient-keyword sub-strategy computes according to the claim. -/
def patientSpec (cfg : NameExtractorConfig) (words : List String) : Option PatientName :=
  ((List.range words.length).findSome? (patientHitSpec cfg words)).map
    (fun r => ⟨r.1, r.1 + 1, r.2.1, r.2.2⟩)

theorem patientStep_eq_spec (cfg : NameExtractorConfig) (words : List String) :
    patientStep cfg words = patientHitSpec cfg words := by
  funext i
  rw [patientStep, patientHitSpec]
  by_cases h : rstripColon (pyLower (words.getD i "")) ∈ cfg.patient_keywords
  · rw [if_pos h, if_pos h, patientWindow, patientWindowGo_eq_findSome?]
  · rw [if_neg h, if_neg h]

theorem patientPairAt_sound {words : List String} {i j : Nat} {cw nw : String}
    (h : patientPairAt words i = some (j, cw, nw)) :
    j = i ∧ i + 1 < words.length ∧ cw = words.getD i "" ∧ nw = words.getD (i + 1) "" ∧
      is_valid_french_first_name cw = true ∧ is_valid_french_family_name nw = true := by
  rw [patientPairAt] at h
  by_cases hc : i + 1 < words.length ∧
      is_valid_french_first_name (words.getD i "") = true ∧
      is_valid_french_family_name (words.getD (i + 1) "") = true
  · rw [if_pos hc] at h
    injection h with h
    obtain ⟨h1, h2⟩ := Prod.mk.injEq .. ▸ h
    have h1' : j = i := by
      have := congrArg Prod.fst h
      simpa using this.symm
    have h2' : cw = words.getD i "" := by
      have := congrArg (fun p => p.2.1) h
      simpa using this.symm
    have h3' : nw = words.getD (i + 1) "" := by
      have := congrArg (fun p => p.2.2) h
      simpa using this.symm
    exact ⟨h1', hc.1, h2', h3', h2' ▸ hc.2.1, h3' ▸ hc.2.2⟩
  · rw [if_neg hc] at h
    cases h

/-- Characterisation of `_try_patient_keyword`: the first patient-label
occurrence whose bounded window contains a validated adjacent pair yields the
candidate at the window's first such pair. -/
theorem try_patient_keyword_eq (cfg : NameExtractorConfig) (words : List String) :
    try_patient_keyword cfg words = .ok (patientSpec cfg words) := by
  rw [try_patient_keyword, patientStep_eq_spec, patientSpec]
  cases h : (List.range words.length).findSome? (patientHitSpec cfg words) with
  | none => rfl
  | some r =>
    obtain ⟨j, cw, nw⟩ := r
    obtain ⟨i, hi, hhit⟩ := List.exists_of_findSome?_eq_some h
    rw [patientHitSpec] at hhit
    by_cases hk : rstripColon (pyLower (words.getD i "")) ∈ cfg.patient_keywords
    · rw [if_pos hk] at hhit
      obtain ⟨j', hj', hpair⟩ := List.exists_of_findSome?_eq_some hhit
      obtain ⟨_, _, _, _, hv1, hv2⟩ := patientPairAt_sound hpair
      show (mkPatientName j (j + 1) cw nw).map some = _
      rw [mkPatientName_ok j (j + 1) cw nw hv1 hv2]
      rfl
    · rw [if_neg hk] at hhit
      cases hhit

/-- C6: the patient-label sub-strategy scans for a patient-label keyword at
index `i`, searches indices `j` from `i+1` up to but excluding
`min(i + lookahead, length - 1)` (requiring `j+1` in range), returns the
first `j` whose adjacent pair validates, and otherwise continues with later
patient-label occurrences; the scenario tokens `["patient","Jean","DUPONT"]`
with the default lookahead of 5 yield first name "Jean", family name
"DUPONT" at indices 1 and 2. -/
theorem c6_patient_keyword_window (cfg : NameExtractorConfig) (words : List String) :
    try_patient_keyword cfg words = .ok (patientSpec cfg words) ∧
      detect_patient_name_using_keywords defaultConfig
          [⟨"patient", ⟨0, 0, 0, 0⟩⟩, ⟨"Jean", ⟨0, 0, 0, 0⟩⟩, ⟨"DUPONT", ⟨0, 0, 0, 0⟩⟩] =
        .ok (some ⟨1, 2, "Jean", "DUPONT"⟩) :=
  ⟨try_patient_keyword_eq cfg words, by rfl⟩

/-- The prefix site at scan index `i`, as the claim words it: tokens `i+1`
and `i+2` must exist, the lowercased token at `i` must be a configured name
prefix, and assignment A (first = `i+1`, family = `i+2`) is tried before
assignment B (first = `i+2`, family = `i+1`). -/
def prefixSiteSpec (cfg : NameExtractorConfig) (sorted_words : List Token) (i : Nat) :
    Option PatientName :=
  if i + 2 < sorted_words.length ∧
      pyLower (sorted_words.getD i dummyToken).text ∈ cfg.name_prefixes then
    let a := (sorted_words.getD (i + 1) dummyToken).text
    let b := (sorted_words.getD (i + 2) dummyToken).text
    if is_valid_french_first_name a = true ∧ is_valid_french_family_name b = true then
      some ⟨i + 1, i + 2, a, b⟩
    else if is_valid_french_first_name b = true ∧ is_valid_french_family_name a = true then
      some ⟨i + 2, i + 1, b, a⟩
    else none
  else none

theorem prefixSiteStep_eq (cfg : NameExtractorConfig) (sorted_words : List Token)
    (i : Nat) :
    prefixSiteStep cfg sorted_words i = (prefixSiteSpec cfg sorted_words i).map .ok := by
  rw [prefixSiteStep, prefixSiteSpec]
  by_cases h0 : sorted_words.length ≤ i + 2
  · have hc : ¬(i + 2 < sorted_words.length ∧
        pyLower (sorted_words.getD i dummyToken).text ∈ cfg.name_prefixes) :=
      fun hc => absurd hc.1 (by omega)
    rw [if_pos h0, if_neg hc]
    rfl
  · rw [if_neg h0]
    by_cases h1 : pyLower (sorted_words.getD i dummyToken).text ∈ cfg.name_prefixes
    · have hc : i + 2 < sorted_words.length ∧
          pyLower (sorted_words.getD i dummyToken).text ∈ cfg.name_prefixes :=
        ⟨by omega, h1⟩
      rw [if_pos h1, if_pos hc]
      by_cases h2 : (is_valid_french_first_name (sorted_words.getD (i + 1) dummyToken).text &&
          is_valid_french_family_name (sorted_words.getD (i + 2) dummyToken).text) = true
      · obtain ⟨h2a, h2b⟩ := (Bool.and_eq_true _ _).mp h2
        have hcp : is_valid_french_first_name (sorted_words.getD (i + 1) dummyToken).text =
              true ∧
            is_valid_french_family_name (sorted_words.getD (i + 2) dummyToken).text = true :=
          ⟨h2a, h2b⟩
        rw [if_pos h2, if_pos hcp, mkPatientName_ok _ _ _ _ h2a h2b]
        rfl
      · have hcn : ¬(is_valid_french_first_name
              (sorted_words.getD (i + 1) dummyToken).text = true ∧
            is_valid_french_family_name (sorted_words.getD (i + 2) dummyToken).text = true) :=
          fun hc2 => h2 ((Bool.and_eq_true _ _).mpr hc2)
        rw [if_neg h2, if_neg hcn]
        by_cases h3 : (is_valid_french_first_name (sorted_words.getD (i + 2) dummyToken).text &&
            is_valid_french_family_name (sorted_words.getD (i + 1) dummyToken).text) = true
        · obtain ⟨h3a, h3b⟩ := (Bool.and_eq_true _ _).mp h3
          have hcp : is_valid_french_first_name
                (sorted_words.getD (i + 2) dummyToken).text = true ∧
              is_valid_french_family_name (sorted_words.getD (i + 1) dummyToken).text = true :=
            ⟨h3a, h3b⟩
          rw [if_pos h3, if_pos hcp, mkPatientName_ok _ _ _ _ h3a h3b]
          rfl
        · have hcn3 : ¬(is_valid_french_first_name
                (sorted_words.getD (i + 2) dummyToken).text = true ∧
              is_valid_french_family_name (sorted_words.getD (i + 1) dummyToken).text = true) :=
            fun hc3 => h3 ((Bool.and_eq_true _ _).mpr hc3)
          rw [if_neg h3, if_neg hcn3]
          rfl
    · have hcn : ¬(i + 2 < sorted_words.length ∧
          pyLower (sorted_words.getD i dummyToken).text ∈ cfg.name_prefixes) :=
        fun hc => h1 hc.2
      rw [if_neg h1, if_neg hcn]
      rfl

theorem findSome?_option_map {β γ : Type} (f : Nat → Option β) (g : β → γ) :
    ∀ l : List Nat, l.findSome? (fun i => (f i).map g) = (l.findSome? f).map g := by
  intro l
  induction l with
  | nil => rfl
  | cons a l ih =>
    rw [List.findSome?_cons, List.findSome?_cons]
    cases h : f a with
    | none => exact ih
    | some b => rfl

/-- The prefix strategy never raises and returns the first producing site. -/
theorem detect_prefixes_eq (cfg : NameExtractorConfig) (sorted_words : List Token) :
    detect_patient_name_using_prefixes cfg sorted_words =
      .ok ((List.range sorted_words.length).findSome? (prefixSiteSpec cfg sorted_words)) := by
  rw [detect_patient_name_using_prefixes]
  have hfun : prefixSiteStep cfg sorted_words =
      fun i => (prefixSiteSpec cfg sorted_words i).map .ok :=
    funext (prefixSiteStep_eq cfg sorted_words)
  rw [hfun, findSome?_option_map]
  cases h : (List.range sorted_words.length).findSome? (prefixSiteSpec cfg sorted_words) with
  | none => rfl
  | some pn => rfl

/-- C7: the prefix strategy returns exactly the candidate of the leftmost
index whose token is a configured name prefix followed by two tokens of which
one assignment validates (assignment A tried before B); sites where neither
assignment validates are skipped. The scenario tokens
`["Monsieur","Jean","DUPONT"]` yield first name "Jean" (index 1) and family
name "DUPONT" (index 2). -/
theorem c7_prefix_first_fit (cfg : NameExtractorConfig) (sorted_words : List Token)
    (pn : PatientName) :
    (detect_patient_name_using_prefixes cfg sorted_words = .ok (some pn) ↔
      ∃ i, i < sorted_words.length ∧ prefixSiteSpec cfg sorted_words i = some pn ∧
        ∀ k, k < i → prefixSiteSpec cfg sorted_words k = none) ∧
      detect_patient_name_using_prefixes defaultConfig
          [⟨"Monsieur", ⟨0, 0, 0, 0⟩⟩, ⟨"Jean", ⟨0, 0, 0, 0⟩⟩, ⟨"DUPONT", ⟨0, 0, 0, 0⟩⟩] =
        .ok (some ⟨1, 2, "Jean", "DUPONT"⟩) := by
  constructor
  · rw [detect_prefixes_eq]
    constructor
    · intro h
      have h' : (List.range sorted_words.length).findSome?
          (prefixSiteSpec cfg sorted_words) = some pn := by
        injection h
      exact (findSome?_range_eq_some _ _ _).mp h'
    · intro h
      rw [(findSome?_range_eq_some _ _ _).mpr h]
  · rfl

/-- C8: on a page whose ordered token sequence lets both strategies produce a
candidate, the page scan returns the prefix-derived one — the prefix strategy
runs first and a non-empty result short-circuits the keyword strategy. -/
theorem c8_prefix_priority (cfg : NameExtractorConfig) (ws : List Token)
    (pnP pnK : PatientName)
    (hp : detect_patient_name_using_prefixes cfg (orderTokens cfg ws) = .ok (some pnP))
    (hk : detect_patient_name_using_keywords cfg (orderTokens cfg ws) = .ok (some pnK)) :
    detect_patient_name_from_page cfg ⟨some ws⟩ = .ok (some pnP) := by
  have hne : ws.isEmpty = false := by
    cases hws : ws with
    | nil =>
      exfalso
      rw [hws] at hp
      have : orderTokens cfg ([] : List Token) = [] := by
        rw [orderTokens]
        cases cfg.sort_document <;> rfl
      rw [this, detect_prefixes_eq] at hp
      simp at hp
    | cons a l => rfl
  simp only [detect_patient_name_from_page, hne, Bool.false_eq_true, if_false, hp]
  rfl

/-- A page on which the prefix strategy and both keyword sub-strategies all
find a candidate. -/
def bothStrategiesTokens : List Token :=
  [⟨"Monsieur", ⟨0, 0, 0, 0⟩⟩, ⟨"Jean", ⟨1, 1, 0, 0⟩⟩, ⟨"DUPONT", ⟨2, 2, 0, 0⟩⟩,
   ⟨"Nom:", ⟨3, 3, 0, 0⟩⟩, ⟨"MARTIN", ⟨4, 4, 0, 0⟩⟩,
   ⟨"Prénom:", ⟨5, 5, 0, 0⟩⟩, ⟨"Pierre", ⟨6, 6, 0, 0⟩⟩]

theorem c8_prefix_priority_witness :
    detect_patient_name_from_page defaultConfig ⟨some bothStrategiesTokens⟩ =
      .ok (some ⟨1, 2, "Jean", "DUPONT"⟩) :=
  c8_prefix_priority defaultConfig bothStrategiesTokens
    ⟨1, 2, "Jean", "DUPONT"⟩ ⟨6, 4, "Pierre", "MARTIN"⟩ (by rfl) (by rfl)

/-- A page lacking the `words` field raises `InvalidDocumentFormat`. -/
theorem detect_page_words_none (cfg : NameExtractorConfig) (p : Page)
    (h : p.words = none) :
    detect_patient_name_from_page cfg p = .error .invalidDocumentFormat := by
  obtain ⟨w⟩ := p
  have hw : w = none := h
  subst hw
  rfl

/-- A page with an empty `words` list yields no result and no error. -/
theorem detect_page_words_empty (cfg : NameExtractorConfig) (p : Page)
    (h : p.words = some []) :
    detect_patient_name_from_page cfg p = .ok none := by
  obtain ⟨w⟩ := p
  have hw : w = some [] := h
  subst hw
  rfl

/-- If every page of the list yields no result, the page loop returns the
non-error "not found" value. -/
theorem extractPages_all_none (cfg : NameExtractorConfig) :
    ∀ ps : List Page, (∀ q ∈ ps, detect_patient_name_from_page cfg q = .ok none) →
      extractPages cfg ps = .ok none := by
  intro ps
  induction ps with
  | nil => intro _; rfl
  | cons q rest ih =>
    intro h
    have hq := h q (by simp)
    simp only [extractPages, hq]
    exact ih (fun r hr => h r (by simp [hr]))

/-- If the pages before some page all yield no result and that page lacks
`words`, the document scan raises `InvalidDocumentFormat`. -/
theorem extractPages_error_at (cfg : NameExtractorConfig) :
    ∀ (pre : List Page) (p : Page) (post : List Page),
      (∀ q ∈ pre, detect_patient_name_from_page cfg q = .ok none) →
      p.words = none →
      extractPages cfg (pre ++ p :: post) = .error .invalidDocumentFormat := by
  intro pre
  induction pre with
  | nil =>
    intro p post _ hw
    simp only [List.nil_append, extractPages, detect_page_words_none cfg p hw]
    rfl
  | cons q rest ih =>
    intro p post h hw
    have hq := h q (by simp)
    simp only [List.cons_append, extractPages, hq]
    exact ih p post (fun r hr => h r (by simp [hr])) hw

/-- C4: missing `pages` raises `InvalidDocumentFormat`; a visited page
missing `words` raises `InvalidDocumentFormat`; a present-but-empty `words`
list contributes no result without error; and a document none of whose pages
yields a candidate returns the non-error "not found" value after all
pages. -/
theorem c4_structural_errors (cfg : NameExtractorConfig) :
    (∀ d : Document, d.pages = none →
        extract_patient_name_from_document cfg d = .error .invalidDocumentFormat) ∧
      (∀ p : Page, p.words = none →
        detect_patient_name_from_page cfg p = .error .invalidDocumentFormat) ∧
      (∀ (pre : List Page) (p : Page) (post : List Page),
        (∀ q ∈ pre, detect_patient_name_from_page cfg q = .ok none) →
        p.words = none →
        extract_patient_name_from_document cfg ⟨some (pre ++ p :: post)⟩ =
          .error .invalidDocumentFormat) ∧
      (∀ p : Page, p.words = some [] →
        detect_patient_name_from_page cfg p = .ok none) ∧
      (∀ ps : List Page,
        (∀ q ∈ ps, detect_patient_name_from_page cfg q = .ok none) →
        extract_patient_name_from_document cfg ⟨some ps⟩ = .ok none) := by
  refine ⟨?_, detect_page_words_none cfg, ?_, detect_page_words_empty cfg, ?_⟩
  · intro d h
    obtain ⟨pg⟩ := d
    have hp : pg = none := h
    subst hp
    rfl
  · intro pre p post h hw
    exact extractPages_error_at cfg pre p post h hw
  · intro ps h
    exact extractPages_all_none cfg ps h

theorem c4_structural_errors_witness :
    extract_patient_name_from_document defaultConfig ⟨none⟩ =
        .error .invalidDocumentFormat ∧
      detect_patient_name_from_page defaultConfig ⟨none⟩ =
        .error .invalidDocumentFormat ∧
      extract_patient_name_from_document defaultConfig
          ⟨some [⟨some []⟩, ⟨none⟩]⟩ = .error .invalidDocumentFormat ∧
      detect_patient_name_from_page defaultConfig ⟨some []⟩ = .ok none ∧
      extract_patient_name_from_document defaultConfig ⟨some [⟨some []⟩]⟩ = .ok none := by
  obtain ⟨h1, h2, h3, h4, h5⟩ := c4_structural_errors defaultConfig
  refine ⟨h1 ⟨none⟩ rfl, h2 ⟨none⟩ rfl, ?_, h4 ⟨some []⟩ rfl, ?_⟩
  · exact h3 [⟨some []⟩] ⟨none⟩ []
      (fun q hq => by rw [List.mem_singleton] at hq; subst hq; rfl) rfl
  · exact h5 [⟨some []⟩]
      (fun q hq => by rw [List.mem_singleton] at hq; subst hq; rfl)

/-- Soundness of a first-name hit (code form). -/
theorem sepFirstHitCode_sound {cfg : NameExtractorConfig} {words : List String}
    {i : Nat} {s : String} {k : Nat}
    (h : sepFirstHitCode cfg words i = some (s, k)) :
    is_valid_french_first_name s = true := by
  rw [sepFirstHitCode] at h
  by_cases h1 : rstripColon (pyLower (words.getD i "")) ∈ cfg.nom_keywords ∧
      i + 1 < words.length
  · rw [if_pos h1] at h; cases h
  · rw [if_neg h1] at h
    by_cases h2 : rstripColon (pyLower (words.getD i "")) ∈ cfg.prenom_keywords ∧
        i + 1 < words.length
    · rw [if_pos h2] at h
      by_cases h3 : is_valid_french_first_name (words.getD (i + 1) "") = true
      · rw [if_pos h3] at h
        injection h with h
        injection h with hs _
        exact hs ▸ h3
      · rw [if_neg h3] at h; cases h
    · rw [if_neg h2] at h; cases h

/-- `_try_separate_keywords` never raises, for any configuration. -/
theorem try_separate_no_error (cfg : NameExtractorConfig) (words : List String) :
    ∃ o, try_separate_keywords cfg words = .ok o := by
  rw [try_separate_keywords,
    foldl_overwrite_pair (sepStep cfg words) (sepFirstHitCode cfg words)
      (sepFamilyHit cfg words) (sepStep_shape cfg words) (List.range words.length)
      (none, none),
    overwrite_none_left, overwrite_none_left]
  cases hfst : ((List.range words.length).filterMap (sepFirstHitCode cfg words)).getLast? with
  | none => exact ⟨none, rfl⟩
  | some vf =>
    cases hfam : ((List.range words.length).filterMap (sepFamilyHit cfg words)).getLast? with
    | none => exact ⟨none, rfl⟩
    | some vl =>
      obtain ⟨fn, fi⟩ := vf
      obtain ⟨ln, li⟩ := vl
      obtain ⟨i1, _, hhit1⟩ := getLast?_filterMap_sound hfst
      obtain ⟨i2, _, hhit2⟩ := getLast?_filterMap_sound hfam
      have hval1 := sepFirstHitCode_sound hhit1
      obtain ⟨_, _, _, hval2⟩ := sepFamilyHit_sound hhit2
      have hne1 : fn.data.isEmpty = false := first_name_nonempty hval1
      have hne2 : ln.data.isEmpty = false := family_name_nonempty hval2
      refine ⟨some ⟨fi, li, fn, ln⟩, ?_⟩
      simp only [hne1, hne2, Bool.not_false, Bool.and_self, if_true]
      rw [mkPatientName_ok fi li fn ln hval1 hval2]
      rfl

/-- The do-block of `_detect_patient_name_using_keywords`, unfolded. -/
theorem detect_keywords_unfold (cfg : NameExtractorConfig) (ws : List Token) :
    detect_patient_name_using_keywords cfg ws =
      (try_separate_keywords cfg (words_text ws)) >>= (fun r =>
        match r with
        | some result => pure (some result)
        | none =>
          (try_patient_keyword cfg (words_text ws)) >>= (fun r2 =>
            match r2 with
            | some result => pure (some result)
            | none => pure none)) := rfl

/-- `_detect_patient_name_using_keywords` never raises. -/
theorem detect_keywords_no_error (cfg : NameExtractorConfig) (ws : List Token) :
    ∃ o, detect_patient_name_using_keywords cfg ws = .ok o := by
  obtain ⟨o1, h1⟩ := try_separate_no_error cfg (words_text ws)
  cases o1 with
  | some r =>
    exact ⟨some r, by rw [detect_keywords_unfold, h1]; rfl⟩
  | none =>
    cases h2 : patientSpec cfg (words_text ws) with
    | some pn =>
      exact ⟨some pn, by
        rw [detect_keywords_unfold, h1, try_patient_keyword_eq, h2]; rfl⟩
    | none =>
      exact ⟨none, by
        rw [detect_keywords_unfold, h1, try_patient_keyword_eq, h2]; rfl⟩

/-- Any error raised by a page scan is `InvalidDocumentFormat`. -/
theorem detect_page_error_eq (cfg : NameExtractorConfig) (p : Page)
    (e : ExtractErr)
    (h : detect_patient_name_from_page cfg p = .error e) :
    e = .invalidDocumentFormat := by
  obtain ⟨w⟩ := p
  cases w with
  | none =>
    rw [detect_page_words_none cfg ⟨none⟩ rfl] at h
    injection h with h'
    exact h'.symm
  | some ws =>
    cases hne : ws.isEmpty with
    | true =>
      have hws : ws = [] := List.isEmpty_iff.mp hne
      subst hws
      rw [detect_page_words_empty cfg ⟨some []⟩ rfl] at h
      cases h
    | false =>
      have hunf : detect_patient_name_from_page cfg ⟨some ws⟩ =
          (detect_patient_name_using_prefixes cfg (orderTokens cfg ws)) >>= (fun r =>
            match r with
            | some detected => pure (some detected)
            | none =>
              (detect_patient_name_using_keywords cfg (orderTokens cfg ws)) >>= (fun r2 =>
                match r2 with
                | some detected => pure (some detected)
                | none => pure none)) := by
        simp only [detect_patient_name_from_page, hne, Bool.false_eq_true, if_false]
      rw [hunf, detect_prefixes_eq] at h
      cases hres : (List.range (orderTokens cfg ws).length).findSome?
          (prefixSiteSpec cfg (orderTokens cfg ws)) with
      | some pn =>
        rw [hres] at h
        have h2 : (Except.ok (some pn) : Except ExtractErr (Option PatientName)) =
            .error e := h
        cases h2
      | none =>
        rw [hres] at h
        obtain ⟨o, ho⟩ := detect_keywords_no_error cfg (orderTokens cfg ws)
        have h2 : (detect_patient_name_using_keywords cfg (orderTokens cfg ws)) >>=
            (fun r2 => match r2 with
              | some detected => pure (some detected)
              | none => pure none) =
            (.error e : Except ExtractErr (Option PatientName)) := h
        rw [ho] at h2
        cases o with
        | some pn =>
          have h3 : (Except.ok (some pn) : Except ExtractErr (Option PatientName)) =
              .error e := h2
          cases h3
        | none =>
          have h3 : (Except.ok (none : Option PatientName) :
              Except ExtractErr (Option PatientName)) = .error e := h2
          cases h3

/-- The page loop never raises `ValueError`. -/
theorem extractPages_no_valueError (cfg : NameExtractorConfig) :
    ∀ ps : List Page, extractPages cfg ps ≠ .error .valueError := by
  intro ps
  induction ps with
  | nil => intro h; cases h
  | cons p rest ih =>
    intro h
    cases hd : detect_patient_name_from_page cfg p with
    | error e =>
      have he : e = .invalidDocumentFormat := detect_page_error_eq cfg p e hd
      subst he
      rw [show extractPages cfg (p :: rest) =
        (detect_patient_name_from_page cfg p) >>= (fun r =>
          match r with
          | some patient_name => pure (some patient_name)
          | none => extractPages cfg rest) from rfl, hd] at h
      cases h
    | ok o =>
      rw [show extractPages cfg (p :: rest) =
        (detect_patient_name_from_page cfg p) >>= (fun r =>
          match r with
          | some patient_name => pure (some patient_name)
          | none => extractPages cfg rest) from rfl, hd] at h
      cases o with
      | some pn => cases h
      | none => exact ih h

/-- C9: the `PatientName` constructor succeeds exactly on validator-passing
names and raises `ValueError` otherwise, so no candidate exists in an invalid
state; and the `ValueError` is unreachable through the public entry point:
no document input makes `extract_patient_name_from_document` raise it. -/
theorem c9_candidate_validation :
    (∀ (fi li : Nat) (fn ln : String),
        ((∃ pn, mkPatientName fi li fn ln = .ok pn) ↔
          (is_valid_french_first_name fn = true ∧
            is_valid_french_family_name ln = true)) ∧
        (¬(is_valid_french_first_name fn = true ∧
            is_valid_french_family_name ln = true) →
          mkPatientName fi li fn ln = .error .valueError)) ∧
      (∀ (cfg : NameExtractorConfig) (d : Document),
        extract_patient_name_from_document cfg d ≠ .error .valueError) := by
  constructor
  · intro fi li fn ln
    constructor
    · constructor
      · rintro ⟨pn, hpn⟩
        rw [mkPatientName] at hpn
        by_cases h1 : is_valid_french_first_name fn = true
        · rw [if_pos h1] at hpn
          by_cases h2 : is_valid_french_family_name ln = true
          · exact ⟨h1, h2⟩
          · rw [if_neg h2] at hpn; cases hpn
        · rw [if_neg h1] at hpn; cases hpn
      · rintro ⟨h1, h2⟩
        exact ⟨⟨fi, li, fn, ln⟩, mkPatientName_ok fi li fn ln h1 h2⟩
    · intro hn
      rw [mkPatientName]
      by_cases h1 : is_valid_french_first_name fn = true
      · rw [if_pos h1]
        by_cases h2 : is_valid_french_family_name ln = true
        · exact absurd ⟨h1, h2⟩ hn
        · rw [if_neg h2]
      · rw [if_neg h1]
  · intro cfg d
    obtain ⟨pg⟩ := d
    cases pg with
    | none => intro h; cases h
    | some ps => exact extractPages_no_valueError cfg ps

theorem c9_candidate_validation_witness :
    mkPatientName 0 1 "jean" "DUPONT" = .error .valueError ∧
      extract_patient_name_from_document defaultConfig ⟨some [⟨some []⟩]⟩ ≠
        .error .valueError := by
  have h := c9_candidate_validation
  refine ⟨(h.1 0 1 "jean" "DUPONT").2 ?_, h.2 defaultConfig ⟨some [⟨some []⟩]⟩⟩
  intro hc
  exact absurd hc.1 (by decide)

/-- The scanned text sequence as the claim describes it: texts stripped of
spaces and colons, with every token whose text becomes empty after that
stripping skipped. -/
def spec_filtered_texts (sorted_words : List Token) : List String :=
  sorted_words.filterMap (fun w =>
    if (stripSpaceColon w.text).data.isEmpty then none
    else some (stripSpaceColon w.text))

theorem words_text_cons (w : Token) (rest : List Token) :
    words_text (w :: rest) =
      if wsOnly w.text then words_text rest
      else stripSpaceColon w.text :: words_text rest := by
  rw [words_text, List.filter_cons]
  by_cases h : wsOnly w.text
  · rw [if_pos h, if_neg (by simp [h])]
    rfl
  · have h' : wsOnly w.text = false := Bool.eq_false_iff.mpr h
    rw [if_neg h, if_pos (by simp [h'])]
    rfl

/-- C3 (amended): the keyword strategy scans the texts of those tokens whose
text is not whitespace-only, each stripped of leading/trailing spaces and
colons; the strategy's result depends only on that sequence; and a token
whose text is ":" survives the filter and occupies a position holding the
empty string (so it does sit between a label keyword and the name that
follows it). -/
theorem c3_keyword_token_filter (sorted_words : List Token) :
    words_text sorted_words =
        sorted_words.filterMap (fun w =>
          if wsOnly w.text then none else some (stripSpaceColon w.text)) ∧
      (∀ (cfg : NameExtractorConfig) (ws1 ws2 : List Token),
        words_text ws1 = words_text ws2 →
        detect_patient_name_using_keywords cfg ws1 =
          detect_patient_name_using_keywords cfg ws2) ∧
      (∀ (bb : BBox) (rest : List Token),
        words_text (⟨":", bb⟩ :: rest) = "" :: words_text rest) := by
  refine ⟨?_, ?_, ?_⟩
  · induction sorted_words with
    | nil => rfl
    | cons w rest ih =>
      rw [words_text_cons, List.filterMap_cons]
      by_cases h : wsOnly w.text
      · rw [if_pos h]
        simp only [h, if_true]
        exact ih
      · have h' : wsOnly w.text = false := Bool.eq_false_iff.mpr h
        rw [if_neg h]
        simp only [h', Bool.false_eq_true, if_false]
        rw [ih]
  · intro cfg ws1 ws2 h
    rw [detect_keywords_unfold, detect_keywords_unfold, h]
  · intro bb rest
    have h : wsOnly (Token.mk ":" bb).text = false := rfl
    rw [words_text_cons, if_neg (fun hc => by rw [h] at hc; cases hc)]
    rfl

/-- C3 counterexample: a token whose text is ":" is not skipped — it becomes
an empty-string entry of the scanned sequence, which therefore differs from
the sequence the claim describes, and holds an empty text. -/
theorem c3_counterexample :
    words_text [⟨":", ⟨0, 0, 0, 0⟩⟩] = [""] ∧
      spec_filtered_texts [⟨":", ⟨0, 0, 0, 0⟩⟩] = ([] : List String) ∧
      words_text [⟨":", ⟨0, 0, 0, 0⟩⟩] ≠ spec_filtered_texts [⟨":", ⟨0, 0, 0, 0⟩⟩] := by
  refine ⟨rfl, rfl, ?_⟩
  intro h
  have h2 : ([""] : List String) = ([] : List String) := h
  cases h2

/-- The page position of the `k`-th entry of the keyword strategy's filtered
sequence: dropped (whitespace-only) tokens shift later positions. -/
def keptPos (ws : List Token) (k : Nat) : Nat :=
  match ws, k with
  | [], _ => 0
  | w :: rest, k =>
    if wsOnly w.text then keptPos rest k + 1
    else
      match k with
      | 0 => 0
      | Nat.succ k' => keptPos rest k' + 1

theorem keptPos_cons (w : Token) (rest : List Token) (k : Nat) :
    keptPos (w :: rest) k =
      if wsOnly w.text then keptPos rest k + 1
      else
        match k with
        | 0 => 0
        | Nat.succ k' => keptPos rest k' + 1 := rfl

/-- The `k`-th kept token is the page token at position `keptPos ws k`. -/
theorem get?_keptPos :
    ∀ (ws : List Token) (k : Nat),
      k < (ws.filter (fun w => !wsOnly w.text)).length →
      ws.get? (keptPos ws k) = (ws.filter (fun w => !wsOnly w.text)).get? k := by
  intro ws
  induction ws with
  | nil => intro k hk; cases hk
  | cons w rest ih =>
    intro k hk
    by_cases h : wsOnly w.text
    · have h' : (!wsOnly w.text) = false := by rw [h]; rfl
      rw [List.filter_cons, if_neg (by rw [h']; exact Bool.false_ne_true)] at hk ⊢
      rw [keptPos_cons, if_pos h]
      rw [List.get?_cons_succ]
      exact ih k hk
    · have h' : wsOnly w.text = false := Bool.eq_false_iff.mpr h
      rw [List.filter_cons, if_pos (by rw [h']; rfl)] at hk ⊢
      cases k with
      | zero =>
        rw [keptPos_cons, if_neg h]
        rfl
      | succ k' =>
        rw [keptPos_cons, if_neg h]
        rw [List.get?_cons_succ, List.get?_cons_succ]
        exact ih k' (by simpa using hk)

/-- `keptPos` exceeds `k` by exactly the number of dropped tokens before the
kept token. -/
theorem keptPos_eq_add_count :
    ∀ (ws : List Token) (k : Nat),
      k < (ws.filter (fun w => !wsOnly w.text)).length →
      keptPos ws k = k + (ws.take (keptPos ws k)).countP (fun w => wsOnly w.text) := by
  intro ws
  induction ws with
  | nil => intro k hk; cases hk
  | cons w rest ih =>
    intro k hk
    by_cases h : wsOnly w.text
    · have h' : (!wsOnly w.text) = false := by rw [h]; rfl
      rw [List.filter_cons, if_neg (by rw [h']; exact Bool.false_ne_true)] at hk
      rw [keptPos_cons, if_pos h]
      rw [List.take_succ_cons, List.countP_cons, if_pos h]
      have := ih k hk
      omega
    · have h' : wsOnly w.text = false := Bool.eq_false_iff.mpr h
      rw [List.filter_cons, if_pos (by rw [h']; rfl)] at hk
      cases k with
      | zero =>
        rw [keptPos_cons, if_neg h]
        rfl
      | succ k' =>
        have hkp : keptPos (w :: rest) (k' + 1) = keptPos rest k' + 1 := by
          rw [keptPos_cons, if_neg h]
        rw [hkp, List.take_succ_cons, List.countP_cons, if_neg h]
        have := ih k' (by simpa using hk)
        omega

/-- If some whitespace-only token precedes the kept token's page position,
the page position strictly exceeds the filtered index. -/
theorem keptPos_ne_of_dropped_before {ws : List Token} {k j : Nat} {w : Token}
    (hk : k < (ws.filter (fun w => !wsOnly w.text)).length)
    (hj : j < keptPos ws k) (hget : ws.get? j = some w)
    (hws : wsOnly w.text = true) : keptPos ws k ≠ k := by
  have hcount := keptPos_eq_add_count ws k hk
  have htake : (ws.take (keptPos ws k)).get? j = some w := by
    rw [List.get?_take_eq_if]
    rw [if_pos hj]
    exact hget
  have hmem : w ∈ ws.take (keptPos ws k) := List.get?_mem htake
  have hpos : 0 < (ws.take (keptPos ws k)).countP (fun w => wsOnly w.text) :=
    List.countP_pos_iff.mpr ⟨w, hmem, hws⟩
  omega

theorem get?_getD_of_lt (l : List String) (i : Nat) (h : i < l.length) :
    l.get? i = some (l.getD i "") := by
  rw [show l.getD i "" = (l.get? i).getD "" from rfl, List.get?_eq_get h]
  rfl

/-- Full soundness of a first-name hit (code form). -/
theorem sepFirstHitCode_sound_full {cfg : NameExtractorConfig} {words : List String}
    {i : Nat} {s : String} {k : Nat}
    (h : sepFirstHitCode cfg words i = some (s, k)) :
    k = i + 1 ∧ i + 1 < words.length ∧ words.getD (i + 1) "" = s ∧
      is_valid_french_first_name s = true := by
  rw [sepFirstHitCode] at h
  by_cases h1 : rstripColon (pyLower (words.getD i "")) ∈ cfg.nom_keywords ∧
      i + 1 < words.length
  · rw [if_pos h1] at h; cases h
  · rw [if_neg h1] at h
    by_cases h2 : rstripColon (pyLower (words.getD i "")) ∈ cfg.prenom_keywords ∧
        i + 1 < words.length
    · rw [if_pos h2] at h
      by_cases h3 : is_valid_french_first_name (words.getD (i + 1) "") = true
      · rw [if_pos h3] at h
        injection h with h
        injection h with hs hk
        exact ⟨hk.symm, h2.2, hs, hs ▸ h3⟩
      · rw [if_neg h3] at h; cases h
    · rw [if_neg h2] at h; cases h

/-- A candidate of the separate-keyword sub-strategy indexes the scanned
sequence itself: each index points at the matched name's position there. -/
theorem try_separate_sound {cfg : NameExtractorConfig} {words : List String}
    {pn : PatientName}
    (h : try_separate_keywords cfg words = .ok (some pn)) :
    words.get? pn.first_name_index = some pn.first_name ∧
      words.get? pn.family_name_index = some pn.family_name := by
  rw [try_separate_keywords,
    foldl_overwrite_pair (sepStep cfg words) (sepFirstHitCode cfg words)
      (sepFamilyHit cfg words) (sepStep_shape cfg words) (List.range words.length)
      (none, none),
    overwrite_none_left, overwrite_none_left] at h
  cases hfst : ((List.range words.length).filterMap (sepFirstHitCode cfg words)).getLast? with
  | none =>
    rw [hfst] at h
    have h2 : (Except.ok (none : Option PatientName) :
        Except ExtractErr (Option PatientName)) = .ok (some pn) := h
    injection h2 with h3
    cases h3
  | some vf =>
    rw [hfst] at h
    cases hfam : ((List.range words.length).filterMap (sepFamilyHit cfg words)).getLast? with
    | none =>
      rw [hfam] at h
      have h2 : (Except.ok (none : Option PatientName) :
          Except ExtractErr (Option PatientName)) = .ok (some pn) := h
      injection h2 with h3
      cases h3
    | some vl =>
      rw [hfam] at h
      obtain ⟨fn, fi⟩ := vf
      obtain ⟨ln, li⟩ := vl
      obtain ⟨i1, _, hhit1⟩ := getLast?_filterMap_sound hfst
      obtain ⟨i2, _, hhit2⟩ := getLast?_filterMap_sound hfam
      obtain ⟨hk1, hlt1, hgd1, hval1⟩ := sepFirstHitCode_sound_full hhit1
      obtain ⟨hk2, hlt2, hgd2, hval2⟩ := sepFamilyHit_sound hhit2
      have hne1 : fn.data.isEmpty = false := first_name_nonempty hval1
      have hne2 : ln.data.isEmpty = false := family_name_nonempty hval2
      have hcond : (!fn.data.isEmpty && !ln.data.isEmpty) = true := by
        rw [hne1, hne2]; rfl
      have h2 : (if (!fn.data.isEmpty && !ln.data.isEmpty) = true then
          (mkPatientName fi li fn ln).map some
          else (Except.ok none : Except ExtractErr (Option PatientName))) =
          .ok (some pn) := h
      rw [if_pos hcond, mkPatientName_ok fi li fn ln hval1 hval2] at h2
      have h3 : (Except.ok (some (⟨fi, li, fn, ln⟩ : PatientName)) :
          Except ExtractErr (Option PatientName)) = .ok (some pn) := h2
      injection h3 with h4
      injection h4 with h5
      subst h5
      constructor
      · rw [show (⟨fi, li, fn, ln⟩ : PatientName).first_name_index = fi from rfl, hk1,
          get?_getD_of_lt words (i1 + 1) hlt1, hgd1]
      · rw [show (⟨fi, li, fn, ln⟩ : PatientName).family_name_index = li from rfl, hk2,
          get?_getD_of_lt words (i2 + 1) hlt2, hgd2]

/-- A candidate of the patient-keyword sub-strategy indexes the scanned
sequence itself, at two adjacent positions. -/
theorem patientSpec_sound {cfg : NameExtractorConfig} {words : List String}
    {pn : PatientName}
    (h : patientSpec cfg words = some pn) :
    pn.first_name_index + 1 < words.length ∧
      pn.family_name_index = pn.first_name_index + 1 ∧
      words.get? pn.first_name_index = some pn.first_name ∧
      words.get? pn.family_name_index = some pn.family_name := by
  rw [patientSpec] at h
  cases hf : (List.range words.length).findSome? (patientHitSpec cfg words) with
  | none => rw [hf] at h; cases h
  | some r =>
    rw [hf] at h
    obtain ⟨j, cw, nw⟩ := r
    injection h with h
    subst h
    obtain ⟨i, _, hhit⟩ := List.exists_of_findSome?_eq_some hf
    rw [patientHitSpec] at hhit
    by_cases hk : rstripColon (pyLower (words.getD i "")) ∈ cfg.patient_keywords
    · rw [if_pos hk] at hhit
      obtain ⟨j', _, hpair⟩ := List.exists_of_findSome?_eq_some hhit
      obtain ⟨hj, hlt, hcw, hnw, _, _⟩ := patientPairAt_sound hpair
      subst hj
      refine ⟨hlt, rfl, ?_, ?_⟩
      · rw [show (⟨j, j + 1, cw, nw⟩ : PatientName).first_name_index = j from rfl,
          get?_getD_of_lt words j (by omega), hcw]
      · rw [show (⟨j, j + 1, cw, nw⟩ : PatientName).family_name_index = j + 1 from rfl,
          get?_getD_of_lt words (j + 1) hlt, hnw]
    · rw [if_neg hk] at hhit
      cases hhit

/-- A candidate of the keyword strategy indexes the strategy's filtered
token-text sequence at the matched names' positions there. -/
theorem detect_keywords_sound {cfg : NameExtractorConfig} {ws : List Token}
    {pn : PatientName}
    (h : detect_patient_name_using_keywords cfg ws = .ok (some pn)) :
    (words_text ws).get? pn.first_name_index = some pn.first_name ∧
      (words_text ws).get? pn.family_name_index = some pn.family_name := by
  obtain ⟨o1, h1⟩ := try_separate_no_error cfg (words_text ws)
  rw [detect_keywords_unfold, h1] at h
  cases o1 with
  | some r =>
    have h2 : (Except.ok (some r) : Except ExtractErr (Option PatientName)) =
        .ok (some pn) := h
    injection h2 with h3
    injection h3 with h4
    subst h4
    exact try_separate_sound h1
  | none =>
    have h2 : (try_patient_keyword cfg (words_text ws)) >>= (fun r2 =>
        match r2 with
        | some result => pure (some result)
        | none => pure none) = (.ok (some pn) : Except ExtractErr (Option PatientName)) := h
    rw [try_patient_keyword_eq] at h2
    cases hps : patientSpec cfg (words_text ws) with
    | none =>
      rw [hps] at h2
      have h3 : (Except.ok (none : Option PatientName) :
          Except ExtractErr (Option PatientName)) = .ok (some pn) := h2
      injection h3 with h4
      cases h4
    | some pn' =>
      rw [hps] at h2
      have h3 : (Except.ok (some pn') : Except ExtractErr (Option PatientName)) =
          .ok (some pn) := h2
      injection h3 with h4
      injection h4 with h5
      subst h5
      obtain ⟨_, _, hg1, hg2⟩ := patientSpec_sound hps
      exact ⟨hg1, hg2⟩

/-- C10: a keyword-strategy candidate's indices are positions in the filtered
token-text list built for that strategy (texts of non-whitespace-only tokens,
stripped), not positions in the page's token sequence: the indexed entries of
that list are the matched names, the corresponding page tokens sit at
`keptPos`, and whenever a whitespace-only token precedes a matched name's page
position, the returned index differs from that page position. -/
theorem c10_keyword_indices (cfg : NameExtractorConfig) (ws : List Token)
    (pn : PatientName)
    (h : detect_patient_name_using_keywords cfg ws = .ok (some pn)) :
    ((words_text ws).get? pn.first_name_index = some pn.first_name ∧
      (words_text ws).get? pn.family_name_index = some pn.family_name) ∧
    ((ws.get? (keptPos ws pn.first_name_index)).map
          (fun w => stripSpaceColon w.text) = some pn.first_name ∧
      (ws.get? (keptPos ws pn.family_name_index)).map
          (fun w => stripSpaceColon w.text) = some pn.family_name) ∧
    ((∃ j w, j < keptPos ws pn.first_name_index ∧ ws.get? j = some w ∧
        wsOnly w.text = true) →
      keptPos ws pn.first_name_index ≠ pn.first_name_index) ∧
    ((∃ j w, j < keptPos ws pn.family_name_index ∧ ws.get? j = some w ∧
        wsOnly w.text = true) →
      keptPos ws pn.family_name_index ≠ pn.family_name_index) := by
  obtain ⟨hg1, hg2⟩ := detect_keywords_sound h
  have key : ∀ idx name, (words_text ws).get? idx = some name →
      idx < (ws.filter (fun w => !wsOnly w.text)).length ∧
        (ws.get? (keptPos ws idx)).map (fun w => stripSpaceColon w.text) = some name := by
    intro idx name hg
    rw [words_text, List.get?_map] at hg
    cases hf : (ws.filter (fun w => !wsOnly w.text)).get? idx with
    | none => rw [hf] at hg; cases hg
    | some w0 =>
      rw [hf] at hg
      obtain ⟨hl, _⟩ := List.get?_eq_some.mp hf
      refine ⟨hl, ?_⟩
      rw [get?_keptPos ws idx hl, hf]
      exact hg
  obtain ⟨hl1, hm1⟩ := key _ _ hg1
  obtain ⟨hl2, hm2⟩ := key _ _ hg2
  refine ⟨⟨hg1, hg2⟩, ⟨hm1, hm2⟩, ?_, ?_⟩
  · rintro ⟨j, w, hj, hget, hws⟩
    exact keptPos_ne_of_dropped_before hl1 hj hget hws
  · rintro ⟨j, w, hj, hget, hws⟩
    exact keptPos_ne_of_dropped_before hl2 hj hget hws

/-- A page with a whitespace-only token before the labelled names. -/
def spacedTokens : List Token :=
  [⟨" ", ⟨0, 0, 0, 0⟩⟩, ⟨"Nom:", ⟨0, 0, 0, 0⟩⟩, ⟨"MARTIN", ⟨0, 0, 0, 0⟩⟩,
   ⟨"Prénom:", ⟨0, 0, 0, 0⟩⟩, ⟨"Pierre", ⟨0, 0, 0, 0⟩⟩]

theorem c10_keyword_indices_witness :
    (words_text spacedTokens).get? 3 = some "Pierre" ∧
      keptPos spacedTokens 3 ≠ 3 := by
  have h := c10_keyword_indices defaultConfig spacedTokens
    ⟨3, 1, "Pierre", "MARTIN"⟩ (by rfl)
  exact ⟨h.1.1, h.2.2.1 ⟨0, ⟨" ", ⟨0, 0, 0, 0⟩⟩, by decide, rfl, rfl⟩⟩

theorem c3_keyword_token_filter_witness :
    detect_patient_name_using_keywords defaultConfig
        [⟨"Nom:", ⟨0, 0, 0, 0⟩⟩, ⟨"MARTIN", ⟨1, 1, 0, 0⟩⟩,
         ⟨"Prénom:", ⟨2, 2, 0, 0⟩⟩, ⟨"Pierre", ⟨3, 3, 0, 0⟩⟩] =
      detect_patient_name_using_keywords defaultConfig
        [⟨"Nom:", ⟨9, 9, 9, 9⟩⟩, ⟨"MARTIN", ⟨8, 8, 8, 8⟩⟩,
         ⟨"Prénom:", ⟨7, 7, 7, 7⟩⟩, ⟨"Pierre", ⟨6, 6, 6, 6⟩⟩] :=
  (c3_keyword_token_filter []).2.1 defaultConfig _ _ rfl
